import Mathlib

/-
Verification development for the RNG-Library repository (random_sisd.c,
random_simd.c and their headers).  Machine integers are modelled as Nat
with explicit reduction modulo 2^64 or 2^32 wherever the C arithmetic
wraps around.  The hardware entropy instruction (rdrand) is modelled by
Option-valued parameters: none stands for a draw whose ten-attempt retry
budget was exhausted.
-/

set_option maxHeartbeats 1000000

/-- Modulus of unsigned 64-bit arithmetic. -/
def U64 : Nat := 2 ^ 64

/-- Modulus of unsigned 32-bit arithmetic. -/
def U32 : Nat := 2 ^ 32

/-- Embedding of the integer hashing function rng_hash declared in
random_utils.h.  Its body, Vigna's SplitMix64 finalizer, appears verbatim
in the repository as the reference function mix in test/random_test.c. -/
def rng_hash (value : Nat) : Nat :=
  let v1 := value ^^^ (value >>> 30)
  let v2 := v1 * 0xbf58476d1ce4e5b9 % U64
  let v3 := v2 ^^^ (v2 >>> 27)
  let v4 := v3 * 0x94d049bb133111eb % U64
  v4 ^^^ (v4 >>> 31)

/-- Internal state of the default PRNG (random_sisd.h). -/
structure random_t where
  state : Nat
  increment : Nat
  deriving DecidableEq

/-- Embedding of rng_next from random_sisd.c: the pcg_output_rxs_m_xs_64_64
generator.  Returns the output word together with the updated state. -/
def rng_next (rng : random_t) : Nat × random_t :=
  let x := rng.state
  let state1 := (x * 0x5851F42D4C957F2D + rng.increment) % U64
  let fx := (((x >>> ((x >>> 59) + 5)) ^^^ x) * 0xAEF17502108EF2D9) % U64
  ((fx >>> 43) ^^^ fx, { state := state1, increment := rng.increment })

/-- State transition performed by one rng_next call. -/
def rng_step (rng : random_t) : random_t := (rng_next rng).2

/-- Embedding of rng_init from random_sisd.c.  The two rdrand draws are
modelled by the Option parameters e1 and e2. -/
def rng_init (seed : Nat) (e1 e2 : Option Nat) : random_t :=
  if seed ≠ 0 then
    { state := rng_hash seed, increment := rng_hash (rng_hash seed) ||| 1 }
  else
    match e1, e2 with
    | some s, some i => { state := s, increment := i ||| 1 }
    | _, _ => { state := 0, increment := 0 }

/-- C2: one call to rng_next on state (s, inc) returns fx ^ (fx >> 43)
where fx = ((s >> ((s >> 59) + 5)) ^ s) * 0xAEF17502108EF2D9 mod 2^64,
leaves the post-call state equal to s * 0x5851F42D4C957F2D + inc mod 2^64
with the increment unchanged, and the returned value is a function of the
pre-call state only (independent of the increment).  The function is total:
it is defined for every state and increment value. -/
theorem c2_rng_next_spec (s inc : Nat) :
    ((rng_next ⟨s, inc⟩).1 =
      ((((s >>> ((s >>> 59) + 5)) ^^^ s) * 0xAEF17502108EF2D9) % U64) ^^^
        (((((s >>> ((s >>> 59) + 5)) ^^^ s) * 0xAEF17502108EF2D9) % U64) >>> 43))
    ∧ (rng_next ⟨s, inc⟩).2 = ⟨(s * 0x5851F42D4C957F2D + inc) % U64, inc⟩
    ∧ ∀ inc', (rng_next ⟨s, inc'⟩).1 = (rng_next ⟨s, inc⟩).1 := by
  refine ⟨?_, rfl, fun inc' => rfl⟩
  exact Nat.xor_comm _ _

/-- C3: for every nonzero seed, rng_init returns state = mix(seed) and
increment = mix(mix(seed)) | 1 deterministically; for seed = 0 it uses the
two entropy draws, returning the all-zero sentinel when either fails, and
otherwise forcing the drawn increment odd. -/
theorem c3_rng_init_spec (seed : Nat) (e1 e2 : Option Nat) :
    (seed ≠ 0 → rng_init seed e1 e2 =
        ⟨rng_hash seed, rng_hash (rng_hash seed) ||| 1⟩)
    ∧ (seed = 0 →
        ((e1 = none ∨ e2 = none) → rng_init seed e1 e2 = ⟨0, 0⟩)
        ∧ ∀ s i, e1 = some s → e2 = some i →
            rng_init seed e1 e2 = ⟨s, i ||| 1⟩ ∧ (i ||| 1) % 2 = 1) := by
  constructor
  · intro h
    simp [rng_init, h]
  · intro h
    subst h
    constructor
    · rintro (h1 | h2)
      · subst h1
        simp [rng_init]
      · subst h2
        cases e1 <;> simp [rng_init]
    · rintro s i rfl rfl
      refine ⟨by simp [rng_init], ?_⟩
      simp [Nat.or_mod_two_eq_one]

/-- Witness for C3 at seed 5 and at seed 0 with a failing first draw. -/
theorem c3_rng_init_spec_witness :
    rng_init 5 none none = ⟨rng_hash 5, rng_hash (rng_hash 5) ||| 1⟩ ∧
    rng_init 0 none (some 7) = ⟨0, 0⟩ :=
  ⟨(c3_rng_init_spec 5 none none).1 (by decide),
   ((c3_rng_init_spec 0 none (some 7)).2 rfl).1 (Or.inl rfl)⟩

/-- Count of trailing zero bits, embedding __builtin_ctzll for the nonzero
arguments on which rng_bias uses it. -/
def ctz (n : Nat) : Nat :=
  if h : n = 0 then 0
  else if n % 2 = 1 then 0
  else ctz (n / 2) + 1
termination_by n
decreasing_by exact Nat.div_lt_self (Nat.pos_of_ne_zero h) Nat.one_lt_two

/-- Embedding of the main loop of rng_bias from random_sisd.c; pc is the
program counter of the bitcode interpreter. -/
def rng_bias_go (n m : Nat) (pc : Nat) (accumulator : Nat) (rng : random_t) :
    Nat × random_t :=
  if pc < m then
    let r := rng_next rng
    rng_bias_go n m (pc + 1)
      (if (n >>> pc) &&& 1 = 1 then accumulator ||| r.1 else accumulator &&& r.1)
      r.2
  else (accumulator, rng)
termination_by m - pc
decreasing_by omega

/-- Embedding of rng_bias from random_sisd.c. -/
def rng_bias (rng : random_t) (n : Nat) (m : Nat) : Nat × random_t :=
  rng_bias_go n m (ctz n) 0 rng

/-- Fold described by claim C4: starting from a given accumulator, for each
listed bit position pc take the next generator word and AND it into the
accumulator when bit pc of n is clear, OR it in when the bit is set. -/
def biasFold (n : Nat) (ps : List Nat) (start : Nat × random_t) :
    Nat × random_t :=
  ps.foldl (fun ar pc =>
    let r := rng_next ar.2
    (if Nat.testBit n pc then ar.1 ||| r.1 else ar.1 &&& r.1, r.2)) start

theorem bias_branch_eq (n pc : Nat) :
    ((n >>> pc) &&& 1 = 1) = (Nat.testBit n pc = true) := by
  simp [Nat.testBit_to_div_mod, Nat.and_one_is_mod, Nat.shiftRight_eq_div_pow]

theorem rng_bias_go_eq_fold (n m : Nat) :
    ∀ k pc accumulator rng, m - pc = k →
      rng_bias_go n m pc accumulator rng =
        biasFold n (List.range' pc k) (accumulator, rng) := by
  intro k
  induction k with
  | zero =>
    intro pc accumulator rng hk
    have hnot : ¬ pc < m := by omega
    unfold rng_bias_go
    simp [hnot, biasFold]
  | succ k ih =>
    intro pc accumulator rng hk
    have hlt : pc < m := by omega
    unfold rng_bias_go
    rw [List.range'_succ]
    simp only [hlt, if_true, biasFold, List.foldl_cons]
    simp only [bias_branch_eq]
    exact ih (pc + 1) _ _ (by omega)

theorem biasFold_snd (n : Nat) :
    ∀ (ps : List Nat) (accumulator : Nat) (rng : random_t),
      (biasFold n ps (accumulator, rng)).2 = rng_step^[ps.length] rng := by
  intro ps
  induction ps with
  | nil => intro accumulator rng; rfl
  | cons p ps ih =>
    intro accumulator rng
    simp only [biasFold, List.foldl_cons, List.length_cons]
    rw [Function.iterate_succ_apply]
    exact ih _ (rng_step rng)

/-- C4: rng_bias equals the fold that starts from accumulator 0 and, for
each bit position pc from ctz n up to m - 1, ANDs in the next generator word
when bit pc of n is 0 and ORs it in when the bit is 1; consequently the
generator state is advanced exactly m - ctz n times. -/
theorem c4_rng_bias_spec (rng : random_t) (n m : Nat) :
    rng_bias rng n m = biasFold n (List.range' (ctz n) (m - ctz n)) (0, rng)
    ∧ (rng_bias rng n m).2 = rng_step^[m - ctz n] rng := by
  have h := rng_bias_go_eq_fold n m (m - ctz n) (ctz n) 0 rng rfl
  refine ⟨h, ?_⟩
  rw [rng_bias, h, biasFold_snd, List.length_range']

/-- Population count of a natural number, embedding __builtin_popcountll. -/
def popcount (x : Nat) : Nat :=
  if h : x = 0 then 0
  else x % 2 + popcount (x / 2)
termination_by x
decreasing_by exact Nat.div_lt_self (Nat.pos_of_ne_zero h) Nat.one_lt_two

theorem popcount_le (d : Nat) : ∀ x, x < 2 ^ d → popcount x ≤ d := by
  induction d with
  | zero =>
    intro x hx
    interval_cases x
    simp [popcount]
  | succ d ih =>
    intro x hx
    by_cases h : x = 0
    · simp [h, popcount]
    · rw [popcount, dif_neg h]
      have h2 : x / 2 < 2 ^ d := by
        have := Nat.pow_succ 2 d
        omega
      have := ih (x / 2) h2
      omega

theorem U64_eq : U64 = 2 ^ 64 := rfl

theorem U32_eq : U32 = 2 ^ 32 := rfl

theorem rng_next_fst_lt (rng : random_t) : (rng_next rng).1 < U64 := by
  simp only [rng_next]
  set fx := (((rng.state >>> ((rng.state >>> 59) + 5)) ^^^ rng.state) *
      0xAEF17502108EF2D9) % U64 with hfx
  have h1 : fx < 2 ^ 64 := by
    rw [hfx, U64_eq]
    exact Nat.mod_lt _ (by positivity)
  have h2 : fx >>> 43 ≤ fx := by
    rw [Nat.shiftRight_eq_div_pow]
    exact Nat.div_le_self _ _
  rw [U64_eq]
  exact Nat.xor_lt_two_pow (by omega) h1

theorem rng_bias_go_fst_lt (n m : Nat) :
    ∀ k pc accumulator rng, m - pc = k → accumulator < U64 →
      (rng_bias_go n m pc accumulator rng).1 < U64 := by
  intro k
  induction k with
  | zero =>
    intro pc accumulator rng hk hacc
    have hnot : ¬ pc < m := by omega
    unfold rng_bias_go
    simp only [hnot, if_false]
    exact hacc
  | succ k ih =>
    intro pc accumulator rng hk hacc
    have hlt : pc < m := by omega
    unfold rng_bias_go
    simp only [hlt, if_true]
    refine ih (pc + 1) _ _ (by omega) ?_
    by_cases hb : (n >>> pc) &&& 1 = 1
    · simp only [hb, if_true]
      exact Nat.or_lt_two_pow hacc (rng_next_fst_lt rng)
    · simp only [hb, if_false]
      calc accumulator &&& (rng_next rng).1 ≤ accumulator := Nat.and_le_left
        _ < U64 := hacc

theorem rng_bias_fst_lt (rng : random_t) (n m : Nat) :
    (rng_bias rng n m).1 < U64 :=
  rng_bias_go_fst_lt n m (m - ctz n) (ctz n) 0 rng rfl (by norm_num [U64])

/-- Embedding of the chunk loop of rng_bino from random_sisd.c. -/
def rng_bino_go (n : Nat) (m : Nat) (k : Nat) (success : Nat)
    (rng : random_t) : Nat × random_t :=
  if 64 < k then
    let r := rng_bias rng n m
    rng_bino_go n m (k - 64) (success + popcount r.1) r.2
  else
    let r := rng_bias rng n m
    (success + popcount (r.1 >>> (64 - k)), r.2)
termination_by k
decreasing_by omega

/-- Embedding of rng_bino from random_sisd.c. -/
def rng_bino (rng : random_t) (k n : Nat) (m : Nat) : Nat × random_t :=
  rng_bino_go n m k 0 rng

/-- Generator state after i complete rng_bias calls with fixed n and m. -/
def biasIter (n : Nat) (m : Nat) (rng : random_t) : Nat → random_t
  | 0 => rng
  | i + 1 => (rng_bias (biasIter n m rng i) n m).2

/-- Output word of the (i+1)-st rng_bias call in that sequence. -/
def biasWord (n m : Nat) (rng : random_t) (i : Nat) : Nat :=
  (rng_bias (biasIter n m rng i) n m).1

theorem biasIter_shift (n m : Nat) (rng : random_t) :
    ∀ i, biasIter n m ((rng_bias rng n m).2) i = biasIter n m rng (i + 1) := by
  intro i
  induction i with
  | zero => rfl
  | succ i ih => rw [biasIter, ih]; rfl

theorem biasWord_shift (n m : Nat) (rng : random_t) (i : Nat) :
    biasWord n m ((rng_bias rng n m).2) i = biasWord n m rng (i + 1) := by
  rw [biasWord, biasWord, biasIter_shift]

theorem rng_bino_go_eq (n m : Nat) :
    ∀ k success rng, 1 ≤ k →
      rng_bino_go n m k success rng =
        (success + (∑ i ∈ Finset.range ((k - 1) / 64), popcount (biasWord n m rng i))
          + popcount (biasWord n m rng ((k - 1) / 64) >>> (64 - (k - 64 * ((k - 1) / 64)))),
         biasIter n m rng ((k - 1) / 64 + 1)) := by
  intro k
  induction k using Nat.strong_induction_on with
  | _ k ih =>
    intro success rng hk
    by_cases h64 : 64 < k
    · unfold rng_bino_go
      simp only [h64, if_true]
      rw [ih (k - 64) (by omega) _ _ (by omega)]
      have hq : (k - 1) / 64 = (k - 64 - 1) / 64 + 1 := by omega
      have hr : k - 64 * ((k - 1) / 64) = k - 64 - 64 * ((k - 64 - 1) / 64) := by omega
      rw [hq, Finset.sum_range_succ']
      simp only [biasWord_shift, biasIter_shift]
      have harg : 64 - (k - 64 - 64 * ((k - 64 - 1) / 64)) =
          64 - (k - 64 * ((k - 64 - 1) / 64 + 1)) := by omega
      rw [harg]
      have hw0 : biasWord n m rng 0 = (rng_bias rng n m).1 := rfl
      rw [Prod.mk.injEq]
      refine ⟨?_, rfl⟩
      rw [← hw0]
      omega
    · unfold rng_bino_go
      simp only [h64, if_false]
      have hq : (k - 1) / 64 = 0 := by omega
      rw [hq]
      have hw0 : biasWord n m rng 0 = (rng_bias rng n m).1 := rfl
      rw [Prod.mk.injEq]
      refine ⟨?_, rfl⟩
      rw [← hw0]
      simp

/-- C7: rng_bino accumulates the population count of one full 64-bit
rng_bias word per chunk of 64 trials until at most 64 trials remain, counts
the final chunk of r = k - 64 * ((k-1)/64) remaining trials by
right-shifting its biased word by 64 - r so that only the remaining trials'
low-order bits are counted, and the returned total never exceeds k. -/
theorem c7_rng_bino_spec (rng : random_t) (k n m : Nat) (hk : 1 ≤ k) :
    (rng_bino rng k n m).1 =
      (∑ i ∈ Finset.range ((k - 1) / 64), popcount (biasWord n m rng i))
        + popcount (biasWord n m rng ((k - 1) / 64) >>>
            (64 - (k - 64 * ((k - 1) / 64))))
    ∧ (rng_bino rng k n m).1 ≤ k := by
  have h := rng_bino_go_eq n m k 0 rng hk
  have hfirst : (rng_bino rng k n m).1 =
      (∑ i ∈ Finset.range ((k - 1) / 64), popcount (biasWord n m rng i))
        + popcount (biasWord n m rng ((k - 1) / 64) >>>
            (64 - (k - 64 * ((k - 1) / 64)))) := by
    rw [rng_bino, h]
    simp
  refine ⟨hfirst, ?_⟩
  rw [hfirst]
  have hsum : (∑ i ∈ Finset.range ((k - 1) / 64), popcount (biasWord n m rng i))
      ≤ 64 * ((k - 1) / 64) := by
    calc (∑ i ∈ Finset.range ((k - 1) / 64), popcount (biasWord n m rng i))
        ≤ ∑ _i ∈ Finset.range ((k - 1) / 64), 64 := by
          refine Finset.sum_le_sum fun i _ => ?_
          refine popcount_le 64 _ ?_
          rw [← U64_eq]
          exact rng_bias_fst_lt _ _ _
      _ = 64 * ((k - 1) / 64) := by
          rw [Finset.sum_const, Finset.card_range, smul_eq_mul]
          ring
  have hfin : popcount (biasWord n m rng ((k - 1) / 64) >>>
      (64 - (k - 64 * ((k - 1) / 64)))) ≤ k - 64 * ((k - 1) / 64) := by
    refine popcount_le _ _ ?_
    rw [Nat.shiftRight_eq_div_pow]
    refine Nat.div_lt_of_lt_mul ?_
    have hw : biasWord n m rng ((k - 1) / 64) < 2 ^ 64 := by
      rw [← U64_eq]
      exact rng_bias_fst_lt _ _ _
    calc biasWord n m rng ((k - 1) / 64) < 2 ^ 64 := hw
      _ = 2 ^ (64 - (k - 64 * ((k - 1) / 64))) *
            2 ^ (k - 64 * ((k - 1) / 64)) := by
          rw [← pow_add]
          congr 1
          omega
  omega

/-- Witness for C7 at one trial with probability 1/2. -/
theorem c7_rng_bino_spec_witness :
    (rng_bino ⟨0, 0⟩ 1 1 1).1 =
      (∑ i ∈ Finset.range ((1 - 1) / 64), popcount (biasWord 1 1 ⟨0, 0⟩ i))
        + popcount (biasWord 1 1 ⟨0, 0⟩ ((1 - 1) / 64) >>>
            (64 - (1 - 64 * ((1 - 1) / 64))))
    ∧ (rng_bino ⟨0, 0⟩ 1 1 1).1 ≤ 1 :=
  c7_rng_bino_spec ⟨0, 0⟩ 1 1 1 (by decide)

/-- Number of leading zero bits in the 64-bit representation of a nonzero
word, embedding __builtin_clzll. -/
def clzll (x : Nat) : Nat := 64 - Nat.size x

/-- Rejection loop of rng_rand, with explicit fuel bounding the number of
iterations the unbounded C do-while loop is allowed to run. -/
def rng_rand_go (span bitmask : Nat) : Nat → random_t → Option (Nat × random_t)
  | 0, _ => none
  | fuel + 1, rng =>
    let r := rng_next rng
    let sample := r.1 &&& bitmask
    if sample > span then rng_rand_go span bitmask fuel r.2
    else some (sample, r.2)

/-- Embedding of rng_rand from random_sisd.c; on acceptance the sample plus
the lower bound is returned. -/
def rng_rand (rng : random_t) (mn mx : Nat) (fuel : Nat) :
    Option (Nat × random_t) :=
  let scaled_max := mx - mn
  let bitmask := (U64 - 1) >>> clzll scaled_max
  match rng_rand_go scaled_max bitmask fuel rng with
  | some s => some (s.1 + mn, s.2)
  | none => none

theorem rand_mask_eq (span : Nat) (h : span < 2 ^ 64) :
    (U64 - 1) >>> clzll span = 2 ^ Nat.size span - 1 := by
  have hs : Nat.size span ≤ 64 := Nat.size_le.mpr h
  rw [U64_eq, clzll, Nat.shiftRight_eq_div_pow]
  refine Nat.div_eq_of_lt_le ?_ ?_
  · have heq : (2 ^ Nat.size span - 1) * 2 ^ (64 - Nat.size span) =
        2 ^ 64 - 2 ^ (64 - Nat.size span) := by
      rw [Nat.sub_mul, one_mul, ← pow_add]
      congr 2
      omega
    rw [heq]
    have h1 : 1 ≤ 2 ^ (64 - Nat.size span) := Nat.one_le_two_pow
    omega
  · have h0 : 0 < 2 ^ Nat.size span := Nat.two_pow_pos _
    rw [Nat.sub_add_cancel h0, ← pow_add]
    have heq : Nat.size span + (64 - Nat.size span) = 64 := by omega
    rw [heq]
    omega

theorem rng_rand_go_le (span bitmask : Nat) :
    ∀ fuel rng v rng1,
      rng_rand_go span bitmask fuel rng = some (v, rng1) → v ≤ span := by
  intro fuel
  induction fuel with
  | zero =>
    intro rng v rng1 h
    simp [rng_rand_go] at h
  | succ fuel ih =>
    intro rng v rng1 h
    simp only [rng_rand_go] at h
    split at h
    · exact ih _ _ _ h
    · next hc =>
      cases h
      omega

/-- C8: for min < max (64-bit bounds), rng_rand computes span = max - min
and a bitmask equal to all-ones shifted right by the leading-zero count of
span, which covers exactly the bits needed to represent span; whenever the
rejection loop returns it does so with an accepted sample at most span, and
its return value equals that sample plus min and lies in [min, max]. -/
theorem c8_rng_rand_spec (mn mx : Nat) (hlt : mn < mx) (hmx : mx < U64) :
    ((U64 - 1) >>> clzll (mx - mn) = 2 ^ Nat.size (mx - mn) - 1)
    ∧ ∀ fuel rng v rng1, rng_rand rng mn mx fuel = some (v, rng1) →
        (∃ sample, sample ≤ mx - mn ∧ v = sample + mn) ∧ mn ≤ v ∧ v ≤ mx := by
  constructor
  · refine rand_mask_eq _ ?_
    rw [U64_eq] at hmx
    omega
  · intro fuel rng v rng1 h
    simp only [rng_rand] at h
    cases hgo : rng_rand_go (mx - mn) ((U64 - 1) >>> clzll (mx - mn)) fuel rng with
    | none => rw [hgo] at h; cases h
    | some s =>
      rw [hgo] at h
      cases h
      have hle : s.1 ≤ mx - mn := rng_rand_go_le _ _ fuel rng s.1 s.2 hgo
      exact ⟨⟨s.1, hle, rfl⟩, by omega, by omega⟩

/-- Witness for C8 with bounds [3, 10], one unit of fuel and the zero
state, whose first draw is accepted. -/
theorem c8_rng_rand_spec_witness :
    ((U64 - 1) >>> clzll (10 - 3) = 2 ^ Nat.size (10 - 3) - 1)
    ∧ (∃ sample, sample ≤ 10 - 3 ∧ 3 = sample + 3) ∧ 3 ≤ 3 ∧ 3 ≤ 10 :=
  ⟨(c8_rng_rand_spec 3 10 (by decide) (by norm_num [U64])).1,
   (c8_rng_rand_spec 3 10 (by decide) (by norm_num [U64])).2 1 ⟨0, 0⟩ 3 ⟨0, 0⟩
     (by
       have hsize : Nat.size (10 - 3) = 3 := by
         have h1 : Nat.size (10 - 3) ≤ 3 := Nat.size_le.mpr (by norm_num)
         have h2 : 2 < Nat.size (10 - 3) := Nat.lt_size.mpr (by norm_num)
         omega
       simp only [rng_rand, clzll, hsize]
       decide)⟩

/-- Result of one debiasing pass: the destination word (modelled as one
natural number addressed bit by bit, as the spec describes the bit-array
views over caller buffers), plus the stream_t fields used and filled. -/
structure vndb_result where
  dest : Nat
  used : Nat
  filled : Nat
  deriving DecidableEq

/-- Value of the 2-bit group starting at the given source bit position, the
embedding of u64_bitarray_mask_at(src, read_pos, 0x3).  Modelled from the
spec: bitarray.h is not part of src/, and the spec describes a bit-stream
view addressed by a global bit index.  The bit at the read position is the
low-order bit of the group. -/
def groupVal (src : Nat → Bool) (read : Nat) : Nat :=
  (if src read then 1 else 0) + 2 * (if src (read + 1) then 1 else 0)

/-- Number of destination bits zero-filled by the memset in rng_vndb:
bits 0 .. 8*((m-1)/8+1) - 1, one whole byte at a time. -/
def vndbB (m : Nat) : Nat := 8 * ((m - 1) / 8 + 1)

/-- Embedding of the main loop of rng_vndb from random_sisd.c.  Group value
1 sets the destination bit at the write cursor and advances it, group value
2 advances the write cursor only, groups 0 and 3 are discarded; the read
cursor advances by 2 every iteration and the loop stops once the write
cursor reaches m or the read cursor reaches n. -/
def rng_vndb_go (src : Nat → Bool) (n m : Nat) (read write dest : Nat) :
    vndb_result :=
  if read < n then
    if (if groupVal src read = 1 ∨ groupVal src read = 2 then write + 1
        else write) = m then
      ⟨if groupVal src read = 1 then dest ||| (1 <<< write) else dest,
       read + 2,
       if groupVal src read = 1 ∨ groupVal src read = 2 then write + 1
       else write⟩
    else
      rng_vndb_go src n m (read + 2)
        (if groupVal src read = 1 ∨ groupVal src read = 2 then write + 1
         else write)
        (if groupVal src read = 1 then dest ||| (1 <<< write) else dest)
  else ⟨dest, read, write⟩
termination_by n - read
decreasing_by omega

/-- Embedding of rng_vndb from random_sisd.c: the destination buffer dest0
first has its low 8*((m-1)/8+1) bits zero-filled by the memset, then the
main loop runs from read and write cursors 0. -/
def rng_vndb (src : Nat → Bool) (dest0 : Nat) (n m : Nat) : vndb_result :=
  rng_vndb_go src n m 0 0 (dest0 / 2 ^ vndbB m * 2 ^ vndbB m)

/-- Bit emitted by the t-th 2-bit source group under the Von Neumann rule
of the spec: group value 01 emits 1, group value 10 emits 0, groups 00 and
11 emit nothing. -/
def emitGroup (src : Nat → Bool) (t : Nat) : Option Bool :=
  match src (2 * t), src (2 * t + 1) with
  | true, false => some true
  | false, true => some false
  | _, _ => none

/-- Destination bits emitted by the first g source groups. -/
def emitted (src : Nat → Bool) (g : Nat) : List Bool :=
  (List.range g).filterMap (emitGroup src)

/-- Value of a destination word holding the listed bits from bit 0 up. -/
def packBits : List Bool → Nat
  | [] => 0
  | b :: bs => (if b then 1 else 0) + 2 * packBits bs

theorem packBits_lt (l : List Bool) : packBits l < 2 ^ l.length := by
  induction l with
  | nil => simp [packBits]
  | cons b bs ih =>
    rw [packBits, List.length_cons, pow_succ]
    cases b <;> simp <;> omega

theorem packBits_append (l : List Bool) (b : Bool) :
    packBits (l ++ [b]) = packBits l + (if b then 2 ^ l.length else 0) := by
  induction l with
  | nil => cases b <;> simp [packBits]
  | cons a as ih =>
    rw [List.cons_append, packBits, packBits, ih, List.length_cons]
    cases b <;> simp [pow_succ] <;> ring

theorem emitted_succ (src : Nat → Bool) (t : Nat) :
    emitted src (t + 1) = emitted src t ++ (emitGroup src t).toList := by
  rw [emitted, emitted, List.range_succ, List.filterMap_append]
  cases h : emitGroup src t <;> simp [h]

theorem emitted_len_succ (src : Nat → Bool) (t : Nat) :
    (emitted src (t + 1)).length ≤ (emitted src t).length + 1 := by
  rw [emitted_succ, List.length_append]
  cases h : emitGroup src t <;> simp

theorem lor_two_pow_eq_add (X w : Nat) (h : X / 2 ^ w % 2 = 0) :
    X ||| 2 ^ w = X + 2 ^ w := by
  have hL2 : X % 2 ^ (w + 1) < 2 ^ (w + 1) := Nat.mod_lt _ (Nat.two_pow_pos _)
  have hL : X % 2 ^ (w + 1) < 2 ^ w := by
    have hdiv : X % (2 ^ w * 2) / 2 ^ w = X / 2 ^ w % 2 :=
      Nat.mod_mul_right_div_self X (2 ^ w) 2
    have hp : (2 : Nat) ^ (w + 1) = 2 ^ w * 2 := pow_succ 2 w
    rw [← hp, h] at hdiv
    exact (Nat.div_eq_zero_iff (Nat.two_pow_pos w)).mp hdiv
  have hX : 2 ^ (w + 1) * (X / 2 ^ (w + 1)) + X % 2 ^ (w + 1) = X :=
    Nat.div_add_mod X (2 ^ (w + 1))
  have hsum : 2 ^ w + X % 2 ^ (w + 1) < 2 ^ (w + 1) := by
    have hp : (2 : Nat) ^ (w + 1) = 2 ^ w * 2 := pow_succ 2 w
    omega
  calc X ||| 2 ^ w
      = (2 ^ (w + 1) * (X / 2 ^ (w + 1)) + X % 2 ^ (w + 1)) ||| 2 ^ w := by
        rw [hX]
    _ = ((2 ^ (w + 1) * (X / 2 ^ (w + 1))) ||| X % 2 ^ (w + 1)) ||| 2 ^ w := by
        rw [← Nat.mul_add_lt_is_or hL2]
    _ = (2 ^ (w + 1) * (X / 2 ^ (w + 1))) ||| (X % 2 ^ (w + 1) ||| 2 ^ w) :=
        Nat.or_assoc _ _ _
    _ = (2 ^ (w + 1) * (X / 2 ^ (w + 1))) ||| (2 ^ w + X % 2 ^ (w + 1)) := by
        have hor : 2 ^ w * 1 + X % 2 ^ (w + 1) =
            (2 ^ w * 1) ||| X % 2 ^ (w + 1) := Nat.mul_add_lt_is_or hL 1
        rw [mul_one] at hor
        rw [Nat.or_comm (X % 2 ^ (w + 1)), ← hor]
    _ = 2 ^ (w + 1) * (X / 2 ^ (w + 1)) + (2 ^ w + X % 2 ^ (w + 1)) :=
        (Nat.mul_add_lt_is_or hsum _).symm
    _ = X + 2 ^ w := by omega

theorem window_bit_clear (dhi B w p : Nat) (hp : p < 2 ^ w) (hw : w < B) :
    (dhi * 2 ^ B + p) / 2 ^ w % 2 = 0 := by
  have hpow : (2 : Nat) ^ B = 2 ^ w * (2 * 2 ^ (B - w - 1)) := by
    rw [← pow_succ']
    rw [← pow_add]
    congr 1
    omega
  have h1 : dhi * 2 ^ B + p = 2 ^ w * (2 * 2 ^ (B - w - 1) * dhi) + p := by
    rw [hpow]
    ring
  rw [h1, Nat.mul_add_div (Nat.two_pow_pos w), Nat.div_eq_of_lt hp, add_zero]
  have h2 : 2 * 2 ^ (B - w - 1) * dhi = 2 * (2 ^ (B - w - 1) * dhi) := by ring
  rw [h2]
  exact Nat.mul_mod_right 2 _

theorem groupVal_emitGroup (src : Nat → Bool) (t : Nat) :
    (groupVal src (2 * t) = 1 ↔ emitGroup src t = some true)
    ∧ (groupVal src (2 * t) = 2 ↔ emitGroup src t = some false)
    ∧ ((groupVal src (2 * t) ≠ 1 ∧ groupVal src (2 * t) ≠ 2) ↔
        emitGroup src t = none) := by
  cases h1 : src (2 * t) <;> cases h2 : src (2 * t + 1) <;>
    simp [groupVal, emitGroup, h1, h2]

theorem rng_vndb_go_char (src : Nat → Bool) (n m B : Nat) (hmB : m ≤ B) :
    ∀ k t dhi, n = 2 * t + 2 * k →
      (emitted src t).length < m →
      ∃ g, t ≤ g ∧ g ≤ t + k ∧
        rng_vndb_go src n m (2 * t) ((emitted src t).length)
            (dhi * 2 ^ B + packBits (emitted src t)) =
          ⟨dhi * 2 ^ B + packBits (emitted src g), 2 * g,
           (emitted src g).length⟩ ∧
        ((emitted src g).length = m ∨ g = t + k) ∧
        (∀ g', t ≤ g' → g' < g → (emitted src g').length < m) := by
  intro k
  induction k with
  | zero =>
    intro t dhi hn hlen
    have hstop : ¬ 2 * t < n := by omega
    refine ⟨t, Nat.le_refl t, by omega, ?_, Or.inr (by omega), by omega⟩
    unfold rng_vndb_go
    rw [if_neg hstop]
  | succ k ih =>
    intro t dhi hn hlen
    have hrd : 2 * t < n := by omega
    have hGE := groupVal_emitGroup src t
    unfold rng_vndb_go
    rw [if_pos hrd]
    rcases hE : emitGroup src t with _ | b
    · have hne12 := hGE.2.2.mpr hE
      have hcond : ¬ (groupVal src (2 * t) = 1 ∨ groupVal src (2 * t) = 2) := by
        tauto
      rw [if_neg hcond, if_neg hne12.1]
      have hnem : ¬ (emitted src t).length = m := by omega
      rw [if_neg hnem]
      have hEm : emitted src (t + 1) = emitted src t := by
        rw [emitted_succ, hE]
        simp
      obtain ⟨g, hg1, hg2, hg3, hg4, hg5⟩ :=
        ih (t + 1) dhi (by omega) (by rw [hEm]; exact hlen)
      refine ⟨g, by omega, by omega, ?_, ?_, ?_⟩
      · have h2t : 2 * t + 2 = 2 * (t + 1) := by ring
        rw [h2t, ← hEm]
        exact hg3
      · rcases hg4 with h | h
        · exact Or.inl h
        · exact Or.inr (by omega)
      · intro g' hg'1 hg'2
        by_cases hgt : g' = t
        · subst hgt
          exact hlen
        · exact hg5 g' (by omega) hg'2
    · have hv1 : groupVal src (2 * t) = 1 ↔ b = true := by
        cases b
        · simp only [hGE.1, hE]
          simp
        · simp [hGE.1, hE]
      have hcond : groupVal src (2 * t) = 1 ∨ groupVal src (2 * t) = 2 := by
        cases b
        · exact Or.inr (hGE.2.1.mpr hE)
        · exact Or.inl (hGE.1.mpr hE)
      rw [if_pos hcond]
      have hEm : emitted src (t + 1) = emitted src t ++ [b] := by
        rw [emitted_succ, hE]
        rfl
      have hlen1 : (emitted src (t + 1)).length = (emitted src t).length + 1 := by
        rw [hEm]
        simp
      have hdest : (if groupVal src (2 * t) = 1 then
          dhi * 2 ^ B + packBits (emitted src t) ||| 1 <<< (emitted src t).length
          else dhi * 2 ^ B + packBits (emitted src t)) =
          dhi * 2 ^ B + packBits (emitted src (t + 1)) := by
        rw [hEm, packBits_append]
        cases b
        · rw [if_neg (by simp [hv1])]
          simp
        · rw [if_pos (hv1.mpr rfl), Nat.one_shiftLeft,
            lor_two_pow_eq_add _ _ (window_bit_clear dhi B _ _
              (packBits_lt (emitted src t)) (by omega))]
          simp
          omega
      rw [hdest]
      by_cases hstop : (emitted src t).length + 1 = m
      · rw [if_pos hstop]
        refine ⟨t + 1, by omega, by omega, ?_, Or.inl (by omega), ?_⟩
        · have h2t : 2 * t + 2 = 2 * (t + 1) := by ring
          rw [h2t, hlen1]
        · intro g' hg'1 hg'2
          have : g' = t := by omega
          subst this
          exact hlen
      · rw [if_neg hstop]
        obtain ⟨g, hg1, hg2, hg3, hg4, hg5⟩ :=
          ih (t + 1) dhi (by omega) (by omega)
        refine ⟨g, by omega, by omega, ?_, ?_, ?_⟩
        · have h2t : 2 * t + 2 = 2 * (t + 1) := by ring
          rw [h2t, ← hlen1]
          exact hg3
        · rcases hg4 with h | h
          · exact Or.inl h
          · exact Or.inr (by omega)
        · intro g' hg'1 hg'2
          by_cases hgt : g' = t
          · subst hgt
            exact hlen
          · exact hg5 g' (by omega) hg'2

/-- C5: rng_vndb zero-fills the destination window up front, reads the
source as consecutive non-overlapping 2-bit groups from bit 0, emits 1 for
group value 01 and 0 for group value 10 and nothing otherwise, advances the
read cursor by 2 per group and the write cursor only on emitted bits, stops
as soon as the destination has m bits or n source bits are consumed, and
returns used = bits consumed and filled = bits produced, where filled may
fall short of m on source underflow. -/
theorem c5_rng_vndb_spec (src : Nat → Bool) (dest0 n m : Nat)
    (hn : 0 < n) (hne : n % 2 = 0) (hm : 0 < m) :
    ∃ g, g ≤ n / 2 ∧
      (rng_vndb src dest0 n m).used = 2 * g ∧
      (rng_vndb src dest0 n m).filled = (emitted src g).length ∧
      (rng_vndb src dest0 n m).filled ≤ m ∧
      (rng_vndb src dest0 n m).dest % 2 ^ vndbB m = packBits (emitted src g) ∧
      ((rng_vndb src dest0 n m).filled = m ∨ (rng_vndb src dest0 n m).used = n) ∧
      ∀ g' < g, (emitted src g').length < m := by
  have hmB : m ≤ vndbB m := by rw [vndbB]; omega
  have hlen0 : (emitted src 0).length < m := by
    have hemp : emitted src 0 = [] := rfl
    rw [hemp]
    simpa using hm
  obtain ⟨g, hg1, hg2, hg3, hg4, hg5⟩ :=
    rng_vndb_go_char src n m (vndbB m) hmB (n / 2) 0 (dest0 / 2 ^ vndbB m)
      (by omega) hlen0
  have hcall : rng_vndb src dest0 n m =
      ⟨dest0 / 2 ^ vndbB m * 2 ^ vndbB m + packBits (emitted src g), 2 * g,
       (emitted src g).length⟩ := by
    rw [rng_vndb]
    exact hg3
  have hfill : (emitted src g).length ≤ m := by
    cases g with
    | zero => exact Nat.le_of_lt hlen0
    | succ g0 =>
      have h1 := hg5 g0 (by omega) (by omega)
      have h2 := emitted_len_succ src g0
      omega
  refine ⟨g, by omega, ?_, ?_, ?_, ?_, ?_, ?_⟩
  · rw [hcall]
  · rw [hcall]
  · rw [hcall]
    exact hfill
  · rw [hcall]
    have hp : packBits (emitted src g) < 2 ^ vndbB m := by
      have h1 := packBits_lt (emitted src g)
      have h2 : (emitted src g).length ≤ vndbB m := le_trans hfill hmB
      calc packBits (emitted src g) < 2 ^ (emitted src g).length := h1
        _ ≤ 2 ^ vndbB m := Nat.pow_le_pow_right (by norm_num) h2
    show (dest0 / 2 ^ vndbB m * 2 ^ vndbB m + packBits (emitted src g)) %
        2 ^ vndbB m = packBits (emitted src g)
    rw [Nat.mul_comm (dest0 / 2 ^ vndbB m) (2 ^ vndbB m), Nat.mul_add_mod,
      Nat.mod_eq_of_lt hp]
  · rw [hcall]
    rcases hg4 with h | h
    · exact Or.inl h
    · refine Or.inr ?_
      show 2 * g = n
      omega
  · intro g' hg'
    exact hg5 g' (by omega) hg'

/-- Witness for C5 on the two-bit source 01 with room for one output bit. -/
theorem c5_rng_vndb_spec_witness :
    ∃ g, g ≤ 2 / 2 ∧
      (rng_vndb (fun i => i == 0) 0 2 1).used = 2 * g ∧
      (rng_vndb (fun i => i == 0) 0 2 1).filled =
        (emitted (fun i => i == 0) g).length ∧
      (rng_vndb (fun i => i == 0) 0 2 1).filled ≤ 1 ∧
      (rng_vndb (fun i => i == 0) 0 2 1).dest % 2 ^ vndbB 1 =
        packBits (emitted (fun i => i == 0) g) ∧
      ((rng_vndb (fun i => i == 0) 0 2 1).filled = 1 ∨
        (rng_vndb (fun i => i == 0) 0 2 1).used = 2) ∧
      ∀ g' < g, (emitted (fun i => i == 0) g').length < 1 :=
  c5_rng_vndb_spec (fun i => i == 0) 0 2 1 (by decide) (by decide) (by decide)

/-- Counter x2 of rng_cycc: number of set bits among the first n stream
bits. -/
def cycc_x2 (src : Nat → Bool) (n : Nat) : Nat :=
  ∑ i ∈ Finset.range n, (if src i then 1 else 0)

/-- Counter x1 of rng_cycc: number of positions whose bit and lag-k cyclic
partner are both set. -/
def cycc_x1 (src : Nat → Bool) (n k : Nat) : Nat :=
  ∑ i ∈ Finset.range n, (if src i ∧ src ((i + k) % n) then 1 else 0)

/-- Embedding of rng_cycc from random_sisd.c.  The double arithmetic of the
C code is modelled exactly over the rationals; the division 0/0 the C code
performs when the denominator vanishes (yielding NaN, on which the
function's own range assertions fail) is modelled as none. -/
def rng_cycc (src : Nat → Bool) (n k : Nat) : Option ℚ :=
  let x1 := cycc_x1 src n k
  let x2 := cycc_x2 src n
  let numerator : ℚ := (n : ℚ) * (x1 : ℚ) - (x2 : ℚ) * (x2 : ℚ)
  let denominator : ℚ := (n : ℚ) * (x2 : ℚ) - (x2 : ℚ) * (x2 : ℚ)
  if denominator = 0 then none else some (numerator / denominator)

theorem cycc_key_mod (n : Nat) (hn : 0 < n) :
    ∀ a r : Nat, a < n → r < n → ((a + r) % n + (n - r)) % n = a := by
  intro a r ha hr
  by_cases hc : a + r < n
  · rw [Nat.mod_eq_of_lt hc]
    have he : a + r + (n - r) = a + n := by omega
    rw [he, Nat.add_mod_right]
    exact Nat.mod_eq_of_lt ha
  · have h1 : a + r - n < n := by omega
    have h2 : (a + r) % n = a + r - n := by
      rw [Nat.mod_eq_sub_mod (by omega)]
      exact Nat.mod_eq_of_lt h1
    rw [h2]
    have he : a + r - n + (n - r) = a := by omega
    rw [he, Nat.mod_eq_of_lt ha]

theorem cycc_shift_sum (src : Nat → Bool) (n k : Nat) (hn : 0 < n) :
    (∑ i ∈ Finset.range n, (if src ((i + k) % n) then (1 : ℕ) else 0)) =
      cycc_x2 src n := by
  rw [cycc_x2]
  refine Finset.sum_nbij' (fun i => (i + k) % n)
    (fun j => (j + (n - k % n)) % n) ?_ ?_ ?_ ?_ ?_
  · intro a _
    exact Finset.mem_range.mpr (Nat.mod_lt _ hn)
  · intro a _
    exact Finset.mem_range.mpr (Nat.mod_lt _ hn)
  · intro a ha
    have ha' : a < n := Finset.mem_range.mp ha
    show ((a + k) % n + (n - k % n)) % n = a
    rw [Nat.add_mod a k n, Nat.mod_eq_of_lt ha']
    exact cycc_key_mod n hn a (k % n) ha' (Nat.mod_lt _ hn)
  · intro a ha
    have ha' : a < n := Finset.mem_range.mp ha
    have hx : (a + (n - k % n)) % n < n := Nat.mod_lt _ hn
    show ((a + (n - k % n)) % n + k) % n = a
    rw [Nat.add_mod ((a + (n - k % n)) % n) k n, Nat.mod_eq_of_lt hx]
    by_cases hr0 : k % n = 0
    · rw [hr0]
      rw [Nat.sub_zero, Nat.add_mod_right, Nat.mod_eq_of_lt ha',
        Nat.add_zero, Nat.mod_eq_of_lt ha']
    · have hnr : n - k % n < n := by omega
      have happ := cycc_key_mod n hn a (n - k % n) ha' hnr
      have hsub : n - (n - k % n) = k % n := by
        have := Nat.mod_lt k hn
        omega
      rw [hsub] at happ
      exact happ
  · intro a _
    rfl

theorem cycc_bounds_key (x1 x2 nn : Nat) (h1 : 0 < x2) (h2 : x2 < nn)
    (h3 : x1 ≤ x2) (h4 : 2 * x2 ≤ nn + x1) :
    ((nn : ℚ) * x2 - (x2 : ℚ) * x2 ≠ 0 ∧
     -1 ≤ ((nn : ℚ) * x1 - (x2 : ℚ) * x2) / ((nn : ℚ) * x2 - (x2 : ℚ) * x2) ∧
     ((nn : ℚ) * x1 - (x2 : ℚ) * x2) / ((nn : ℚ) * x2 - (x2 : ℚ) * x2) ≤ 1) := by
  have hb0 : (0 : ℚ) < x2 := by exact_mod_cast h1
  have hbN : (x2 : ℚ) < nn := by exact_mod_cast h2
  have hab : (x1 : ℚ) ≤ x2 := by exact_mod_cast h3
  have h2b : 2 * (x2 : ℚ) ≤ nn + x1 := by exact_mod_cast h4
  have ha0 : (0 : ℚ) ≤ x1 := by positivity
  have hnn0 : (0 : ℚ) < nn := lt_trans hb0 hbN
  have hden : (0 : ℚ) < (nn : ℚ) * x2 - (x2 : ℚ) * x2 := by nlinarith
  refine ⟨ne_of_gt hden, ?_, ?_⟩
  · rw [le_div_iff hden]
    rcases le_or_lt (2 * (x2 : ℚ)) nn with hc | hc
    · nlinarith [mul_le_mul_of_nonneg_right hc (le_of_lt hb0),
        mul_nonneg (le_of_lt hnn0) ha0]
    · nlinarith [mul_nonneg (by linarith : (0 : ℚ) ≤ 2 * (x2 : ℚ) - nn)
        (by linarith : (0 : ℚ) ≤ (nn : ℚ) - x2),
        mul_le_mul_of_nonneg_left h2b (le_of_lt hnn0)]
  · rw [div_le_one hden]
    nlinarith [mul_le_mul_of_nonneg_left hab (le_of_lt hnn0)]

/-- Counterexample to C6 as stated: on the all-zero stream of one bit with
lag 0 the denominator n*x2 - x2*x2 is zero, the C code divides 0.0 by 0.0
and its assertions on the quotient fail; the modelled function returns none
and no value in [-1, 1] is returned. -/
theorem c6_rng_cycc_counterexample :
    rng_cycc (fun _ => false) 1 0 = none ∧
    ¬ ∃ q : ℚ, rng_cycc (fun _ => false) 1 0 = some q ∧ -1 ≤ q ∧ q ≤ 1 := by
  have h : rng_cycc (fun _ => false) 1 0 = none := by
    norm_num [rng_cycc, cycc_x1, cycc_x2]
  refine ⟨h, ?_⟩
  rw [h]
  rintro ⟨q, hq, _⟩
  cases hq

/-- C6 amended: for every binary stream whose first n bits include at least
one set bit and at least one clear bit (0 < x2 < n) and every lag k < n,
rng_cycc returns a value, and that value lies in the inclusive range
[-1, 1]; equivalently the function's internal range assertions hold.  (As
stated over all binary inputs the claim fails: see the counterexample,
where the denominator vanishes.) -/
theorem c6_rng_cycc_amended (src : Nat → Bool) (n k : Nat) (hk : k < n)
    (hx2pos : 0 < cycc_x2 src n) (hx2lt : cycc_x2 src n < n) :
    ∃ q : ℚ, rng_cycc src n k = some q ∧ -1 ≤ q ∧ q ≤ 1 := by
  have hn : 0 < n := by omega
  have hx1le : cycc_x1 src n k ≤ cycc_x2 src n := by
    rw [cycc_x1, cycc_x2]
    refine Finset.sum_le_sum ?_
    intro i _
    by_cases h1 : src i <;> by_cases h2 : src ((i + k) % n) <;> simp [h1, h2]
  have hx1ge : 2 * cycc_x2 src n ≤ n + cycc_x1 src n k := by
    have hB := cycc_shift_sum src n k hn
    have hpoint : ∀ i ∈ Finset.range n,
        ((if src i then (1 : ℕ) else 0) +
          (if src ((i + k) % n) then 1 else 0)) ≤
          (1 + (if src i ∧ src ((i + k) % n) then 1 else 0)) := by
      intro i _
      by_cases h1 : src i <;> by_cases h2 : src ((i + k) % n) <;> simp [h1, h2]
    have hs := Finset.sum_le_sum hpoint
    rw [Finset.sum_add_distrib, Finset.sum_add_distrib, Finset.sum_const,
      Finset.card_range, smul_eq_mul, mul_one, hB] at hs
    rw [cycc_x2, cycc_x1]
    rw [cycc_x2] at hs
    omega
  obtain ⟨hne, hlow, hup⟩ := cycc_bounds_key (cycc_x1 src n k)
    (cycc_x2 src n) n hx2pos hx2lt hx1le hx1ge
  refine ⟨_, ?_, hlow, hup⟩
  simp only [rng_cycc]
  rw [if_neg hne]

/-- Witness for the amended C6 on the stream 10 of two bits at lag 1. -/
theorem c6_rng_cycc_amended_witness :
    ∃ q : ℚ, rng_cycc (fun i => i == 0) 2 1 = some q ∧ -1 ≤ q ∧ q ≤ 1 :=
  c6_rng_cycc_amended (fun i => i == 0) 2 1 (by decide) (by decide) (by decide)

/-- Upper 32-bit half of a 64-bit lane. -/
def hi32 (v : Nat) : Nat := v / U32 % U32

/-- Lower 32-bit half of a 64-bit lane. -/
def lo32 (v : Nat) : Nat := v % U32

/-- Builds a 64-bit lane value from its two 32-bit halves. -/
def blk (h l : Nat) : Nat := h % U32 * U32 + l % U32

/-- Action of _mm256_srli_epi32 on one 64-bit block: each 32-bit half is
shifted right independently. -/
def srli32 (v sh : Nat) : Nat := blk (hi32 v >>> sh) (lo32 v >>> sh)

/-- Action of _mm256_add_epi32 on one 64-bit block: each 32-bit half is
added independently, wrapping modulo 2^32. -/
def add32 (a b : Nat) : Nat := blk (hi32 a + hi32 b) (lo32 a + lo32 b)

/-- Action of _mm256_srlv_epi32 on one 64-bit block: per-half variable
right shift; counts of 32 or more clear the half. -/
def srlv32 (v c : Nat) : Nat :=
  blk (if 32 ≤ hi32 c then 0 else hi32 v >>> hi32 c)
      (if 32 ≤ lo32 c then 0 else lo32 v >>> lo32 c)

/-- Action of _mm256_mul_epu32 on one 64-bit block: the low 32-bit halves
are multiplied into a full 64-bit product. -/
def mul32 (a b : Nat) : Nat := lo32 a * lo32 b % U64

/-- Action of _mm256_slli_epi64 on one 64-bit block. -/
def slli64 (v sh : Nat) : Nat := v <<< sh % U64

/-- Action of _mm256_add_epi64 on one 64-bit block. -/
def add64 (a b : Nat) : Nat := (a + b) % U64

/-- Internal state of the vectorized PRNG (random_simd.h): four 64-bit
lanes of state and four of increment. -/
structure simd_random_t where
  state : Fin 4 → Nat
  increment : Fin 4 → Nat

/-- One lane of the simd_rng_next_partial function of random_simd.c: the same
sequence of AVX2 intrinsics, all of which act block-wise.  The constant
block of set1_epi32(4) carries 4 in both halves; the blocks of
set1_epi64x (lcg_mult, rxs_mult, mod_mask) carry their value in the low
half and zero in the high half.  Returns the output block and the updated
state block. -/
def simd_lane_partial_step (s inc : Nat) : Nat × Nat :=
  let x := s
  let fx1 := add32 (srli32 x 28) 0x0000000400000004
  let fx2 := srlv32 x fx1
  let fx3 := x ^^^ fx2
  let fx4 := mul32 fx3 0x108EF2D9
  let fx5 := fx4 &&& 0xFFFFFFFF
  let fx6 := srli32 fx5 22 ^^^ fx5
  let s1 := mul32 s 0x2C9277B5
  let s2 := s1 &&& 0xFFFFFFFF
  let s3 := add64 s2 inc
  let s4 := s3 &&& 0xFFFFFFFF
  (fx6, s4)

/-- Embedding of the simd_rng_next_partial function of random_simd.c, applied lane-wise. -/
def simd_rng_next_partial_step (r : simd_random_t) :
    (Fin 4 → Nat) × simd_random_t :=
  (fun i => (simd_lane_partial_step (r.state i) (r.increment i)).1,
   { state := fun i => (simd_lane_partial_step (r.state i) (r.increment i)).2,
     increment := r.increment })

/-- Embedding of simd_rng_next from random_simd.c: two partial passes, the
second shifted into the upper 32 bits of each lane and ORed onto the
first. -/
def simd_rng_next (r : simd_random_t) : (Fin 4 → Nat) × simd_random_t :=
  let lower := simd_rng_next_partial_step r
  let upper := simd_rng_next_partial_step lower.2
  (fun i => slli64 (upper.1 i) 32 ||| lower.1 i, upper.2)

/-- Sentinel state returned by simd_rng_init when entropy fails. -/
def simd_sentinel : simd_random_t := ⟨fun _ => 0, fun _ => 0⟩

/-- Masking of every lane to its low 32 bits and forcing of the increment
lanes odd, performed at the success label of simd_rng_init. -/
def simd_maskOdd (r : simd_random_t) : simd_random_t :=
  { state := fun i => r.state i &&& 0xFFFFFFFF,
    increment := fun i => r.increment i &&& 0xFFFFFFFF ||| 1 }

/-- Embedding of simd_rng_init from random_simd.c.  The eight rdrand draws
(the quadruple LL, LH, HL, HH of the state pass, then of the increment
pass) are modelled by Option parameters.  _mm256_set_epi64x lists blocks
from lane 3 down to lane 0, so lane 0 holds HH (derived from seed_1) and
lane 3 holds LL (derived from seed_4). -/
def simd_rng_init (s1 s2 s3 s4 : Nat)
    (e1 e2 e3 e4 f1 f2 f3 f4 : Option Nat) : simd_random_t :=
  if s1 ≠ 0 ∧ s2 ≠ 0 ∧ s3 ≠ 0 ∧ s4 ≠ 0 then
    simd_maskOdd
      { state := ![rng_hash s1, rng_hash s2, rng_hash s3, rng_hash s4],
        increment := ![rng_hash (rng_hash s1), rng_hash (rng_hash s2),
          rng_hash (rng_hash s3), rng_hash (rng_hash s4)] }
  else
    match e1, e2, e3, e4 with
    | some eLL, some eLH, some eHL, some eHH =>
      match f1, f2, f3, f4 with
      | some fLL, some fLH, some fHL, some fHH =>
        simd_maskOdd
          { state := ![eHH, eHL, eLH, eLL],
            increment := ![fHH, fHL, fLH, fLL] }
      | _, _, _, _ => simd_sentinel
    | _, _, _, _ => simd_sentinel

/-- Reference scalar 32-bit PCG stream named by claim C1 (the pcg32i of
test/random_test.c): LCG multiplier 0x2C9277B5 modulo 2^32, rxs-m-xs
permutation with variable shift 4 + (x >> 28), multiplier 0x108EF2D9 and
final xorshift by 22. -/
structure pcg32i where
  current : Nat
  increment : Nat

/-- One step of the reference 32-bit PCG stream. -/
def pcg32i_next (g : pcg32i) : Nat × pcg32i :=
  let x := g.current
  let cur1 := (x * 0x2C9277B5 + g.increment) % U32
  let fx := ((x >>> ((x >>> 28) + 4)) ^^^ x) * 0x108EF2D9 % U32
  ((fx >>> 22) ^^^ fx, { current := cur1, increment := g.increment })

/-- Seeding of the reference stream named by claim C1: two rounds of the
mix function, with the increment forced odd and both masked to 32 bits. -/
def pcg32i_init (seed : Nat) : pcg32i :=
  { current := rng_hash seed % U32,
    increment := (rng_hash (rng_hash seed) ||| 1) % U32 }

/-- Scalar reference state after j steps. -/
def pcg_iter (g : pcg32i) : Nat → pcg32i
  | 0 => g
  | j + 1 => (pcg32i_next (pcg_iter g j)).2

/-- Output of the (j+1)-st step of the scalar reference stream. -/
def pcg_out (g : pcg32i) (j : Nat) : Nat := (pcg32i_next (pcg_iter g j)).1

/-- Vector generator state after t full simd_rng_next calls. -/
def simd_iter (r : simd_random_t) : Nat → simd_random_t
  | 0 => r
  | t + 1 => (simd_rng_next (simd_iter r t)).2

/-- Output vector of the (t+1)-st simd_rng_next call. -/
def simd_out (r : simd_random_t) (t : Nat) : Fin 4 → Nat :=
  (simd_rng_next (simd_iter r t)).1

theorem shiftRight_le_self (s t : Nat) : s >>> t ≤ s := by
  rw [Nat.shiftRight_eq_div_pow]
  exact Nat.div_le_self _ _

theorem and_mask32 (x : Nat) : x &&& 0xFFFFFFFF = x % U32 := by
  have h : (0xFFFFFFFF : Nat) = 2 ^ 32 - 1 := by norm_num
  rw [h, Nat.and_pow_two_sub_one_eq_mod]
  rfl

theorem simd_lane_partial_eq (s inc : Nat) (hs : s < U32) (hinc : inc < U32) :
    simd_lane_partial_step s inc =
      ((pcg32i_next ⟨s, inc⟩).1, (pcg32i_next ⟨s, inc⟩).2.current) := by
  have hU32pos : 0 < U32 := by norm_num [U32]
  have h16U : (16 : Nat) < U32 := by norm_num [U32]
  have h28 : s >>> 28 < 16 := by
    rw [Nat.shiftRight_eq_div_pow]
    refine Nat.div_lt_of_lt_mul ?_
    have he : (2 : Nat) ^ 28 * 16 = U32 := by norm_num [U32]
    omega
  have hs28U : s >>> 28 < U32 := by omega
  have h36 : s >>> 28 + 4 < U32 := by omega
  have hsh32 : ¬ 32 ≤ s >>> 28 + 4 := by omega
  have hhi_s : hi32 s = 0 := by
    rw [hi32, Nat.div_eq_of_lt hs, Nat.zero_mod]
  have hlo_s : lo32 s = s := Nat.mod_eq_of_lt hs
  have e1 : srli32 s 28 = s >>> 28 := by
    rw [srli32, hhi_s, hlo_s, Nat.zero_shiftRight, blk, Nat.zero_mod,
      Nat.zero_mul, Nat.zero_add, Nat.mod_eq_of_lt hs28U]
  have hC4hi : hi32 0x0000000400000004 = 4 := by decide
  have hC4lo : lo32 0x0000000400000004 = 4 := by decide
  have hhi_28 : hi32 (s >>> 28) = 0 := by
    rw [hi32, Nat.div_eq_of_lt hs28U, Nat.zero_mod]
  have hlo_28 : lo32 (s >>> 28) = s >>> 28 := Nat.mod_eq_of_lt hs28U
  have e2 : add32 (s >>> 28) 0x0000000400000004 = 4 * U32 + (s >>> 28 + 4) := by
    rw [add32, hC4hi, hC4lo, hhi_28, hlo_28, blk, Nat.zero_add,
      Nat.mod_eq_of_lt (show (4 : Nat) < U32 by norm_num [U32]),
      Nat.mod_eq_of_lt h36]
  have hfhi : hi32 (4 * U32 + (s >>> 28 + 4)) = 4 := by
    rw [hi32, add_comm, mul_comm 4 U32, Nat.add_mul_div_left _ _ hU32pos,
      Nat.div_eq_of_lt h36, Nat.zero_add,
      Nat.mod_eq_of_lt (show (4 : Nat) < U32 by norm_num [U32])]
  have hflo : lo32 (4 * U32 + (s >>> 28 + 4)) = s >>> 28 + 4 := by
    rw [lo32, mul_comm 4 U32, Nat.mul_add_mod, Nat.mod_eq_of_lt h36]
  have hsrU : s >>> (s >>> 28 + 4) < U32 :=
    lt_of_le_of_lt (shiftRight_le_self _ _) hs
  have e3 : srlv32 s (4 * U32 + (s >>> 28 + 4)) = s >>> (s >>> 28 + 4) := by
    rw [srlv32, hfhi, hflo, if_neg (by norm_num), if_neg hsh32, hhi_s, hlo_s,
      Nat.zero_shiftRight, blk, Nat.zero_mod, Nat.zero_mul, Nat.zero_add,
      Nat.mod_eq_of_lt hsrU]
  have hx3U : s ^^^ s >>> (s >>> 28 + 4) < U32 := by
    rw [U32_eq]
    exact Nat.xor_lt_two_pow (by rw [← U32_eq]; exact hs)
      (by rw [← U32_eq]; exact hsrU)
  have hClo : lo32 0x108EF2D9 = 0x108EF2D9 := by decide
  have e5 : mul32 (s ^^^ s >>> (s >>> 28 + 4)) 0x108EF2D9 =
      (s ^^^ s >>> (s >>> 28 + 4)) * 0x108EF2D9 % U64 := by
    rw [mul32, hClo, lo32, Nat.mod_eq_of_lt hx3U]
  have hdvd : U32 ∣ U64 := ⟨2 ^ 32, by norm_num [U32, U64]⟩
  have e6 : (s ^^^ s >>> (s >>> 28 + 4)) * 0x108EF2D9 % U64 &&& 0xFFFFFFFF =
      (s ^^^ s >>> (s >>> 28 + 4)) * 0x108EF2D9 % U32 := by
    rw [and_mask32, Nat.mod_mod_of_dvd _ hdvd]
  have hx5U : (s ^^^ s >>> (s >>> 28 + 4)) * 0x108EF2D9 % U32 < U32 :=
    Nat.mod_lt _ hU32pos
  have e7 : srli32 ((s ^^^ s >>> (s >>> 28 + 4)) * 0x108EF2D9 % U32) 22 =
      ((s ^^^ s >>> (s >>> 28 + 4)) * 0x108EF2D9 % U32) >>> 22 := by
    rw [srli32, hi32, Nat.div_eq_of_lt hx5U, Nat.zero_mod, Nat.zero_shiftRight,
      lo32, Nat.mod_eq_of_lt hx5U, blk, Nat.zero_mod, Nat.zero_mul,
      Nat.zero_add,
      Nat.mod_eq_of_lt (lt_of_le_of_lt (shiftRight_le_self _ _) hx5U)]
  have hClcg : lo32 0x2C9277B5 = 0x2C9277B5 := by decide
  have f1 : mul32 s 0x2C9277B5 = s * 0x2C9277B5 % U64 := by
    rw [mul32, hClcg, lo32, Nat.mod_eq_of_lt hs]
  have f2 : s * 0x2C9277B5 % U64 &&& 0xFFFFFFFF = s * 0x2C9277B5 % U32 := by
    rw [and_mask32, Nat.mod_mod_of_dvd _ hdvd]
  have hsum2 : s * 0x2C9277B5 % U32 + inc < U64 := by
    have hm : s * 0x2C9277B5 % U32 < U32 := Nat.mod_lt _ hU32pos
    have : U32 + U32 < U64 := by norm_num [U32, U64]
    omega
  have f3 : add64 (s * 0x2C9277B5 % U32) inc = s * 0x2C9277B5 % U32 + inc := by
    rw [add64, Nat.mod_eq_of_lt hsum2]
  have f4 : (s * 0x2C9277B5 % U32 + inc) &&& 0xFFFFFFFF =
      (s * 0x2C9277B5 + inc) % U32 := by
    rw [and_mask32, Nat.mod_add_mod]
  simp only [simd_lane_partial_step, pcg32i_next]
  rw [e1, e2, e3, Nat.xor_comm s (s >>> (s >>> 28 + 4))] at *
  rw [e5, e6, e7, f1, f2, f3, f4]

theorem pcg32i_next_fst_lt (g : pcg32i) : (pcg32i_next g).1 < U32 := by
  simp only [pcg32i_next]
  set fx := ((g.current >>> ((g.current >>> 28) + 4)) ^^^ g.current) *
    0x108EF2D9 % U32 with hfx
  have hq : fx < U32 := Nat.mod_lt _ (by norm_num [U32])
  have hq2 : fx >>> 22 ≤ fx := shiftRight_le_self _ _
  rw [U32_eq]
  refine Nat.xor_lt_two_pow ?_ ?_
  · rw [← U32_eq]
    omega
  · rw [← U32_eq]
    exact hq

theorem pcg32i_next_cur_lt (g : pcg32i) : (pcg32i_next g).2.current < U32 :=
  Nat.mod_lt _ (by norm_num [U32])

theorem pcg_iter_inc (g : pcg32i) : ∀ j, (pcg_iter g j).increment = g.increment := by
  intro j
  induction j with
  | zero => rfl
  | succ j ih =>
    show (pcg32i_next (pcg_iter g j)).2.increment = g.increment
    rw [← ih]
    rfl

theorem pcg_iter_cur_lt (g : pcg32i) (h : g.current < U32) :
    ∀ j, (pcg_iter g j).current < U32 := by
  intro j
  cases j with
  | zero => exact h
  | succ j => exact pcg32i_next_cur_lt _

theorem partial_sync (r : simd_random_t) (c : Fin 4 → pcg32i)
    (h : ∀ i, r.state i = (c i).current ∧ r.increment i = (c i).increment)
    (hcur : ∀ i, (c i).current < U32) (hinc : ∀ i, (c i).increment < U32) :
    ∀ i, (simd_rng_next_partial_step r).1 i = (pcg32i_next (c i)).1 ∧
      (simd_rng_next_partial_step r).2.state i = (pcg32i_next (c i)).2.current ∧
      (simd_rng_next_partial_step r).2.increment i = (c i).increment := by
  intro i
  have hlane := simd_lane_partial_eq (c i).current (c i).increment
    (hcur i) (hinc i)
  refine ⟨?_, ?_, (h i).2⟩
  · show (simd_lane_partial_step (r.state i) (r.increment i)).1 = _
    rw [(h i).1, (h i).2, hlane]
  · show (simd_lane_partial_step (r.state i) (r.increment i)).2 = _
    rw [(h i).1, (h i).2, hlane]

theorem next_sync (r : simd_random_t) (c : Fin 4 → pcg32i)
    (h : ∀ i, r.state i = (c i).current ∧ r.increment i = (c i).increment)
    (hcur : ∀ i, (c i).current < U32) (hinc : ∀ i, (c i).increment < U32) :
    ∀ i, (simd_rng_next r).1 i =
        (pcg32i_next (c i)).1 + U32 * (pcg32i_next ((pcg32i_next (c i)).2)).1 ∧
      (simd_rng_next r).2.state i =
        (pcg32i_next ((pcg32i_next (c i)).2)).2.current ∧
      (simd_rng_next r).2.increment i = (c i).increment := by
  have p1 := partial_sync r c h hcur hinc
  have h2 : ∀ i, (simd_rng_next_partial_step r).2.state i =
      ((fun i => (pcg32i_next (c i)).2) i).current ∧
      (simd_rng_next_partial_step r).2.increment i =
      ((fun i => (pcg32i_next (c i)).2) i).increment := by
    intro i
    exact ⟨(p1 i).2.1, (p1 i).2.2⟩
  have p2 := partial_sync (simd_rng_next_partial_step r).2
    (fun i => (pcg32i_next (c i)).2) h2
    (fun i => pcg32i_next_cur_lt (c i)) (fun i => hinc i)
  intro i
  have ho1 : (pcg32i_next (c i)).1 < U32 := pcg32i_next_fst_lt _
  have ho2 : (pcg32i_next ((pcg32i_next (c i)).2)).1 < U32 :=
    pcg32i_next_fst_lt _
  refine ⟨?_, (p2 i).2.1, (p2 i).2.2⟩
  show slli64 ((simd_rng_next_partial_step (simd_rng_next_partial_step r).2).1 i) 32 |||
      (simd_rng_next_partial_step r).1 i = _
  rw [(p2 i).1, (p1 i).1, slli64, Nat.shiftLeft_eq]
  have hlt : (pcg32i_next ((pcg32i_next (c i)).2)).1 * 2 ^ 32 < U64 := by
    calc (pcg32i_next ((pcg32i_next (c i)).2)).1 * 2 ^ 32
        < U32 * 2 ^ 32 := by
          have hp : (0 : Nat) < 2 ^ 32 := by positivity
          exact Nat.mul_lt_mul_of_lt_of_le ho2 (le_refl _) hp
      _ = U64 := by norm_num [U32, U64]
  rw [Nat.mod_eq_of_lt hlt]
  have hor := Nat.mul_add_lt_is_or
    (show (pcg32i_next (c i)).1 < 2 ^ 32 from by rw [← U32_eq]; exact ho1)
    ((pcg32i_next ((pcg32i_next (c i)).2)).1)
  have hcomm : (pcg32i_next ((pcg32i_next (c i)).2)).1 * 2 ^ 32 =
      2 ^ 32 * (pcg32i_next ((pcg32i_next (c i)).2)).1 := mul_comm _ _
  rw [hcomm, ← hor, U32_eq]
  omega

theorem simd_sync (g : Fin 4 → pcg32i)
    (hcur : ∀ i, (g i).current < U32) (hinc : ∀ i, (g i).increment < U32)
    (r0 : simd_random_t)
    (hr : ∀ i, r0.state i = (g i).current ∧ r0.increment i = (g i).increment) :
    ∀ t i, (simd_iter r0 t).state i = (pcg_iter (g i) (2 * t)).current ∧
      (simd_iter r0 t).increment i = (g i).increment := by
  intro t
  induction t with
  | zero => intro i; exact ⟨(hr i).1, (hr i).2⟩
  | succ t ih =>
    have hns := next_sync (simd_iter r0 t) (fun i => pcg_iter (g i) (2 * t))
      (fun i => ⟨(ih i).1, by rw [(ih i).2, pcg_iter_inc]⟩)
      (fun i => pcg_iter_cur_lt (g i) (hcur i) (2 * t))
      (fun i => by rw [pcg_iter_inc]; exact hinc i)
    intro i
    refine ⟨?_, ?_⟩
    · show (simd_rng_next (simd_iter r0 t)).2.state i = _
      rw [(hns i).2.1]
      have he : 2 * (t + 1) = 2 * t + 1 + 1 := by ring
      rw [he]
      rfl
    · show (simd_rng_next (simd_iter r0 t)).2.increment i = _
      rw [(hns i).2.2]
      exact pcg_iter_inc (g i) (2 * t)

theorem simd_out_sync (g : Fin 4 → pcg32i)
    (hcur : ∀ i, (g i).current < U32) (hinc : ∀ i, (g i).increment < U32)
    (r0 : simd_random_t)
    (hr : ∀ i, r0.state i = (g i).current ∧ r0.increment i = (g i).increment) :
    ∀ t i, simd_out r0 t i =
      pcg_out (g i) (2 * t) + U32 * pcg_out (g i) (2 * t + 1) := by
  intro t i
  have hsync := simd_sync g hcur hinc r0 hr t
  have hns := next_sync (simd_iter r0 t) (fun i => pcg_iter (g i) (2 * t))
    (fun i => ⟨(hsync i).1, by rw [(hsync i).2, pcg_iter_inc]⟩)
    (fun i => pcg_iter_cur_lt (g i) (hcur i) (2 * t))
    (fun i => by rw [pcg_iter_inc]; exact hinc i)
  rw [simd_out, (hns i).1]
  rfl

theorem mod_lor_one (x : Nat) : x % U32 ||| 1 = (x ||| 1) % U32 := by
  rw [U32_eq]
  refine Nat.eq_of_testBit_eq fun i => ?_
  simp only [Nat.testBit_or, Nat.testBit_mod_two_pow]
  by_cases hi : i = 0
  · subst hi
    simp [Nat.testBit_one_zero]
  · have ht1 : Nat.testBit 1 i = false := by
      rw [← Bool.not_eq_true, Nat.testBit_one_eq_true_iff_self_eq_zero]
      exact hi
    simp [ht1]

/-- C1: for all nonzero seeds (a, b, c, d) and every call index t, lane i
of the t-th 256-bit output of simd_rng_next on a state built by
simd_rng_init(a, b, c, d) carries, in its low 32 bits, the (2t)-th output
of the scalar 32-bit PCG stream seeded by two rounds of the mix function
on the i-th seed (increment forced odd, both masked to 32 bits), and in
its high 32 bits that stream's (2t+1)-th output. -/
theorem c1_simd_scalar_equiv (s1 s2 s3 s4 : Nat)
    (h1 : s1 ≠ 0) (h2 : s2 ≠ 0) (h3 : s3 ≠ 0) (h4 : s4 ≠ 0)
    (e1 e2 e3 e4 f1 f2 f3 f4 : Option Nat) (t : Nat) (i : Fin 4) :
    simd_out (simd_rng_init s1 s2 s3 s4 e1 e2 e3 e4 f1 f2 f3 f4) t i =
      pcg_out (pcg32i_init (![s1, s2, s3, s4] i)) (2 * t) +
        U32 * pcg_out (pcg32i_init (![s1, s2, s3, s4] i)) (2 * t + 1) := by
  have hinit : simd_rng_init s1 s2 s3 s4 e1 e2 e3 e4 f1 f2 f3 f4 =
      simd_maskOdd
        { state := ![rng_hash s1, rng_hash s2, rng_hash s3, rng_hash s4],
          increment := ![rng_hash (rng_hash s1), rng_hash (rng_hash s2),
            rng_hash (rng_hash s3), rng_hash (rng_hash s4)] } := by
    unfold simd_rng_init
    rw [if_pos ⟨h1, h2, h3, h4⟩]
  rw [hinit]
  refine simd_out_sync (fun i => pcg32i_init (![s1, s2, s3, s4] i))
    (fun i => Nat.mod_lt _ (by norm_num [U32]))
    (fun i => Nat.mod_lt _ (by norm_num [U32]))
    _ (fun i => ?_) t i
  constructor
  · show (![rng_hash s1, rng_hash s2, rng_hash s3, rng_hash s4] i) &&&
        0xFFFFFFFF = rng_hash (![s1, s2, s3, s4] i) % U32
    have hv : ![rng_hash s1, rng_hash s2, rng_hash s3, rng_hash s4] i =
        rng_hash (![s1, s2, s3, s4] i) := by
      fin_cases i <;> rfl
    rw [hv, and_mask32]
  · show (![rng_hash (rng_hash s1), rng_hash (rng_hash s2),
        rng_hash (rng_hash s3), rng_hash (rng_hash s4)] i) &&&
        0xFFFFFFFF ||| 1 =
        (rng_hash (rng_hash (![s1, s2, s3, s4] i)) ||| 1) % U32
    have hv : ![rng_hash (rng_hash s1), rng_hash (rng_hash s2),
        rng_hash (rng_hash s3), rng_hash (rng_hash s4)] i =
        rng_hash (rng_hash (![s1, s2, s3, s4] i)) := by
      fin_cases i <;> rfl
    rw [hv, and_mask32, mod_lor_one]

/-- Witness for C1 at seeds (1, 2, 3, 4), entropy unused, first call,
lane 0. -/
theorem c1_simd_scalar_equiv_witness :
    simd_out (simd_rng_init 1 2 3 4 none none none none none none none none)
        0 0 =
      pcg_out (pcg32i_init (![1, 2, 3, 4] 0)) (2 * 0) +
        U32 * pcg_out (pcg32i_init (![1, 2, 3, 4] 0)) (2 * 0 + 1) :=
  c1_simd_scalar_equiv 1 2 3 4 (by decide) (by decide) (by decide) (by decide)
    none none none none none none none none 0 0

/-- Well-formedness predicate of claim C9: the upper 32 bits of every state
and increment lane are zero and every increment lane is odd. -/
def simd_wf (r : simd_random_t) : Prop :=
  ∀ i, r.state i < U32 ∧ r.increment i < U32 ∧ r.increment i % 2 = 1

instance (r : simd_random_t) : Decidable (simd_wf r) := by
  unfold simd_wf
  infer_instance

theorem simd_maskOdd_wf (r : simd_random_t) : simd_wf (simd_maskOdd r) := by
  intro i
  refine ⟨?_, ?_, ?_⟩
  · show r.state i &&& 0xFFFFFFFF < U32
    rw [U32_eq]
    exact Nat.and_lt_two_pow _ (by norm_num)
  · show r.increment i &&& 0xFFFFFFFF ||| 1 < U32
    rw [U32_eq]
    refine Nat.or_lt_two_pow ?_ ?_
    · exact Nat.and_lt_two_pow _ (by norm_num)
    · norm_num
  · show (r.increment i &&& 0xFFFFFFFF ||| 1) % 2 = 1
    simp [Nat.or_mod_two_eq_one]

theorem simd_maskOdd_ne_sentinel (r : simd_random_t) :
    simd_maskOdd r ≠ simd_sentinel := by
  intro h
  have h1 : (r.increment 0 &&& 0xFFFFFFFF ||| 1) = 0 :=
    congrFun (congrArg simd_random_t.increment h) 0
  have h2 : (r.increment 0 &&& 0xFFFFFFFF ||| 1) % 2 = 1 := by
    simp [Nat.or_mod_two_eq_one]
  rw [h1] at h2
  exact absurd h2 (by decide)

theorem simd_lane_partial_snd_lt (s inc : Nat) :
    (simd_lane_partial_step s inc).2 < U32 := by
  show add64 (mul32 s 0x2C9277B5 &&& 0xFFFFFFFF) inc &&& 0xFFFFFFFF < U32
  rw [U32_eq]
  exact Nat.and_lt_two_pow _ (by norm_num)

/-- C9: every non-sentinel result of simd_rng_init has all state and
increment lanes confined to their low 32 bits with every increment lane
odd, and this predicate is preserved by every simd_rng_next call, which
re-masks the state after each arithmetic step and never modifies the
increment vector. -/
theorem c9_simd_invariants :
    (∀ s1 s2 s3 s4 e1 e2 e3 e4 f1 f2 f3 f4,
      simd_rng_init s1 s2 s3 s4 e1 e2 e3 e4 f1 f2 f3 f4 = simd_sentinel ∨
      simd_wf (simd_rng_init s1 s2 s3 s4 e1 e2 e3 e4 f1 f2 f3 f4))
    ∧ (∀ r, simd_wf r →
        simd_wf (simd_rng_next r).2 ∧
        (simd_rng_next r).2.increment = r.increment) := by
  constructor
  · intro s1 s2 s3 s4 e1 e2 e3 e4 f1 f2 f3 f4
    unfold simd_rng_init
    by_cases hs : s1 ≠ 0 ∧ s2 ≠ 0 ∧ s3 ≠ 0 ∧ s4 ≠ 0
    · rw [if_pos hs]
      exact Or.inr (simd_maskOdd_wf _)
    · rw [if_neg hs]
      rcases e1 with _ | v1
      · exact Or.inl rfl
      rcases e2 with _ | v2
      · exact Or.inl rfl
      rcases e3 with _ | v3
      · exact Or.inl rfl
      rcases e4 with _ | v4
      · exact Or.inl rfl
      rcases f1 with _ | w1
      · exact Or.inl rfl
      rcases f2 with _ | w2
      · exact Or.inl rfl
      rcases f3 with _ | w3
      · exact Or.inl rfl
      rcases f4 with _ | w4
      · exact Or.inl rfl
      exact Or.inr (simd_maskOdd_wf _)
  · intro r hwf
    refine ⟨?_, rfl⟩
    intro i
    exact ⟨simd_lane_partial_snd_lt _ _, (hwf i).2.1, (hwf i).2.2⟩

/-- Witness for C9's preservation half on a concrete well-formed state. -/
theorem c9_simd_invariants_witness :
    simd_wf ((simd_rng_next (simd_random_t.mk (fun _ => 1) (fun _ => 1))).2) ∧
    (simd_rng_next (simd_random_t.mk (fun _ => 1) (fun _ => 1))).2.increment =
      (simd_random_t.mk (fun _ => 1) (fun _ => 1)).increment :=
  c9_simd_invariants.2 (simd_random_t.mk (fun _ => 1) (fun _ => 1)) (by decide)

theorem lor_one_odd (x : Nat) : (x ||| 1) % 2 = 1 := by
  simp [Nat.or_mod_two_eq_one]

theorem lor_one_ne_zero (x : Nat) : x ||| 1 ≠ 0 := by
  intro h
  have h2 := lor_one_odd x
  rw [h] at h2
  exact absurd h2 (by decide)

/-- C10: rng_init returns the all-zero sentinel pair exactly when the seed
is zero and one of the two entropy draws fails, and simd_rng_init returns
the all-zero sentinel vectors exactly when some seed is zero and one of
the eight entropy draws fails; on every other path the returned increment
has its low bit forced to 1 and is therefore nonzero, so a deterministic
initialization can never be mistaken for the failure sentinel. -/
theorem c10_sentinel_iff :
    (∀ seed e1 e2,
      (rng_init seed e1 e2 = ⟨0, 0⟩ ↔ seed = 0 ∧ (e1 = none ∨ e2 = none)) ∧
      (rng_init seed e1 e2 ≠ ⟨0, 0⟩ →
        (rng_init seed e1 e2).increment % 2 = 1 ∧
        (rng_init seed e1 e2).increment ≠ 0))
    ∧ ∀ s1 s2 s3 s4 e1 e2 e3 e4 f1 f2 f3 f4,
      (simd_rng_init s1 s2 s3 s4 e1 e2 e3 e4 f1 f2 f3 f4 = simd_sentinel ↔
        ¬(s1 ≠ 0 ∧ s2 ≠ 0 ∧ s3 ≠ 0 ∧ s4 ≠ 0) ∧
        (e1 = none ∨ e2 = none ∨ e3 = none ∨ e4 = none ∨
         f1 = none ∨ f2 = none ∨ f3 = none ∨ f4 = none)) ∧
      (simd_rng_init s1 s2 s3 s4 e1 e2 e3 e4 f1 f2 f3 f4 ≠ simd_sentinel →
        ∀ i, (simd_rng_init s1 s2 s3 s4 e1 e2 e3 e4 f1 f2 f3 f4).increment i
            % 2 = 1 ∧
          (simd_rng_init s1 s2 s3 s4 e1 e2 e3 e4 f1 f2 f3 f4).increment i
            ≠ 0) := by
  constructor
  · intro seed e1 e2
    by_cases hseed : seed ≠ 0
    · unfold rng_init
      rw [if_pos hseed]
      constructor
      · constructor
        · intro h
          rw [random_t.mk.injEq] at h
          exact absurd h.2 (lor_one_ne_zero _)
        · rintro ⟨h0, _⟩
          exact absurd h0 hseed
      · intro _
        exact ⟨lor_one_odd _, lor_one_ne_zero _⟩
    · have h0 : seed = 0 := by omega
      subst h0
      unfold rng_init
      rw [if_neg hseed]
      rcases e1 with _ | v1
      · exact ⟨⟨fun _ => ⟨rfl, Or.inl rfl⟩, fun _ => rfl⟩, fun h => absurd rfl h⟩
      rcases e2 with _ | v2
      · exact ⟨⟨fun _ => ⟨rfl, Or.inr rfl⟩, fun _ => rfl⟩, fun h => absurd rfl h⟩
      refine ⟨⟨fun h => ?_, fun h => ?_⟩, fun _ => ⟨lor_one_odd _, lor_one_ne_zero _⟩⟩
      · rw [random_t.mk.injEq] at h
        exact absurd h.2 (lor_one_ne_zero _)
      · rcases h.2 with hc | hc <;> cases hc
  · intro s1 s2 s3 s4 e1 e2 e3 e4 f1 f2 f3 f4
    unfold simd_rng_init
    by_cases hs : s1 ≠ 0 ∧ s2 ≠ 0 ∧ s3 ≠ 0 ∧ s4 ≠ 0
    · rw [if_pos hs]
      constructor
      · constructor
        · intro h
          exact absurd h (simd_maskOdd_ne_sentinel _)
        · rintro ⟨h0, _⟩
          exact absurd hs h0
      · intro _ i
        exact ⟨lor_one_odd _, lor_one_ne_zero _⟩
    · rw [if_neg hs]
      rcases e1 with _ | v1
      · exact ⟨⟨fun _ => ⟨hs, Or.inl rfl⟩, fun _ => rfl⟩, fun h => absurd rfl h⟩
      rcases e2 with _ | v2
      · exact ⟨⟨fun _ => ⟨hs, Or.inr (Or.inl rfl)⟩, fun _ => rfl⟩,
          fun h => absurd rfl h⟩
      rcases e3 with _ | v3
      · exact ⟨⟨fun _ => ⟨hs, Or.inr (Or.inr (Or.inl rfl))⟩, fun _ => rfl⟩,
          fun h => absurd rfl h⟩
      rcases e4 with _ | v4
      · exact ⟨⟨fun _ => ⟨hs, Or.inr (Or.inr (Or.inr (Or.inl rfl)))⟩,
          fun _ => rfl⟩, fun h => absurd rfl h⟩
      rcases f1 with _ | w1
      · exact ⟨⟨fun _ => ⟨hs, Or.inr (Or.inr (Or.inr (Or.inr (Or.inl rfl))))⟩,
          fun _ => rfl⟩, fun h => absurd rfl h⟩
      rcases f2 with _ | w2
      · exact ⟨⟨fun _ => ⟨hs,
          Or.inr (Or.inr (Or.inr (Or.inr (Or.inr (Or.inl rfl)))))⟩,
          fun _ => rfl⟩, fun h => absurd rfl h⟩
      rcases f3 with _ | w3
      · exact ⟨⟨fun _ => ⟨hs,
          Or.inr (Or.inr (Or.inr (Or.inr (Or.inr (Or.inr (Or.inl rfl))))))⟩,
          fun _ => rfl⟩, fun h => absurd rfl h⟩
      rcases f4 with _ | w4
      · exact ⟨⟨fun _ => ⟨hs,
          Or.inr (Or.inr (Or.inr (Or.inr (Or.inr
            (Or.inr (Or.inr rfl))))))⟩,
          fun _ => rfl⟩, fun h => absurd rfl h⟩
      refine ⟨⟨fun h => absurd h (simd_maskOdd_ne_sentinel _), fun h => ?_⟩,
        fun _ i => ⟨lor_one_odd _, lor_one_ne_zero _⟩⟩
      rcases h.2 with hc | hc | hc | hc | hc | hc | hc | hc <;> cases hc

/-- Witness for C10: a zero seed with a failed draw yields the sentinel in
both APIs, and a nonzero-seed scalar initialization has an odd, nonzero
increment. -/
theorem c10_sentinel_iff_witness :
    rng_init 0 none none = ⟨0, 0⟩ ∧
    ((rng_init 5 none none).increment % 2 = 1 ∧
      (rng_init 5 none none).increment ≠ 0) ∧
    simd_rng_init 0 1 1 1 none none none none none none none none =
      simd_sentinel :=
  ⟨((c10_sentinel_iff.1 0 none none).1).mpr ⟨rfl, Or.inl rfl⟩,
   (c10_sentinel_iff.1 5 none none).2 (by decide),
   ((c10_sentinel_iff.2 0 1 1 1 none none none none none none none none).1).mpr
     ⟨by simp, Or.inl rfl⟩⟩
